import Mathlib

/-!
Shallow embedding of the sequential filtering-and-repair preprocessing
pipeline of `wind_forecasting/preprocessing/preprocessing_main.py`.

The driver script is the only source file; the helper routines it imports
from `data_filter` / OpenOA (`conditional_filter`, `unresponsive_flag`,
`add_df_continuity_columns`, `merge_adjacent_periods`,
`get_continuity_group_index`, ...) are not part of the source tree, so they
are modelled from the specification where indicated.  Everything taken
directly from the driver (threshold constants, comparison operators of the
continuity-segmentation stage, the error check position, the calibration
bias expression, the normalization expressions) mirrors the quoted lines.

Numeric columns are modelled over `ℝ` (the source operates on floats);
machine times are modelled in seconds with the fixed sampling interval
`dt`, timestamps being `t0 + i * dt` for row index `i`.
-/

set_option maxHeartbeats 1000000

/-- Sampling interval in seconds, `DT = 5` in the driver. -/
def dtSeconds : Nat := 5

/-- The `FILTERS` list enabled in the driver (line 42 of the source). -/
def FILTERS : List String :=
  ["unresponsive_sensor", "range_flag", "bin_filter", "std_range_flag",
   "impute_missing_data", "normalize"]

/-- Textual order of the nullification stage blocks in the driver: the
`if "<stage>" in FILTERS:` blocks appear in exactly this sequence
(source lines 318, 364, 386, 417, 464, 512). -/
def nullificationStageOrder : List String :=
  ["unresponsive_sensor", "inoperational", "range_flag", "window_range_flag",
   "bin_filter", "std_range_flag"]

/-- Nullification stages that actually execute for a given `FILTERS`
configuration, in the order the driver runs them. -/
def executedNullificationStages (filts : List String) : List String :=
  nullificationStageOrder.filter (fun s => filts.contains s)

/-- Stuck-sensor run threshold in samples:
`thr = int(np.timedelta64(20, 'm') / np.timedelta64(dt, 's'))`
(source line 323), i.e. 20 minutes divided by the sampling interval. -/
def stuckThreshold (dt : Nat) : Nat := (20 * 60) / dt

/-- Prepend one element to a run list: extend the first run when the value
matches, otherwise start a new run of length one. -/
def rleCons {α : Type} [DecidableEq α] (a : α) : List (α × Nat) → List (α × Nat)
  | [] => [(a, 1)]
  | (b, k) :: t => if a = b then (a, k + 1) :: t else (a, 1) :: (b, k) :: t

/-- Run-length encoding of a list into maximal runs of equal values,
as `(value, run length)` pairs in order of appearance. -/
def rleRuns {α : Type} [DecidableEq α] : List α → List (α × Nat)
  | [] => []
  | a :: rest => rleCons a (rleRuns rest)

/-- Expand a run list back into the flat list it encodes. -/
def expandRuns {α : Type} : List (α × Nat) → List α
  | [] => []
  | (a, k) :: rest => List.replicate k a ++ expandRuns rest

/-- Modelled from the spec: `openoa.utils.filters.unresponsive_flag` (the
unresponsive / stuck-sensor detector invoked at source line 326) is not under
`src/`.  Per the spec it flags a cell exactly when the cell lies in a run of
at least `thr` consecutive identical non-null values; null cells break runs
and are never flagged. -/
def unresponsiveFlag {α : Type} [DecidableEq α] (thr : Nat) (l : List (Option α)) : List Bool :=
  expandRuns ((rleRuns l).map (fun p => (p.1.isSome && decide (thr ≤ p.2), p.2)))

/-- Error raised by the conditional nullifier when too much data would be
destroyed (`ThresholdExceeded` in the spec's taxonomy). -/
inductive NullifierError where
  | thresholdExceeded
deriving DecidableEq, Repr

/-- Cells of one column that a flag mask would newly null: flagged and
currently non-null. -/
def newlyNulledInColumn {α : Type} (flags : List Bool) (col : List (Option α)) : Nat :=
  ((flags.zip col).filter (fun p => p.1 && p.2.isSome)).length

/-- Newly nulled cells summed over a column family (columns zipped with
their per-column flag masks). -/
def familyNewlyNulled {α : Type} (flags : List (List Bool)) (cols : List (List (Option α))) : Nat :=
  ((flags.zip cols).map (fun p => newlyNulledInColumn p.1 p.2)).sum

/-- Total number of cells in a column family. -/
def familyTotalCells {α : Type} (cols : List (List (Option α))) : Nat :=
  (cols.map List.length).sum

/-- Null out the flagged cells of one column. -/
def nullifyColumn {α : Type} (flags : List Bool) (col : List (Option α)) : List (Option α) :=
  (flags.zip col).map (fun p => if p.1 then none else p.2)

/-- Modelled from the spec: `DataFilter.conditional_filter` (invoked at
source lines 342/344 and the analogous calls of the other stages) is not
under `src/`.  Per the spec (§4.3) it nulls the flagged cells of the column
family, but first computes the fraction of newly-nulled cells relative to
the total cells of the family and fails with `ThresholdExceeded` — leaving
the table untouched — when that fraction exceeds `maxNullFraction`.
The fraction comparison `newly / total > maxNullFraction` is expressed
denominator-free as `maxNullFraction * total < newly`. -/
def conditionalFilter {α : Type} (maxNullFraction : ℚ) (flags : List (List Bool))
    (cols : List (List (Option α))) : Except NullifierError (List (List (Option α))) :=
  if maxNullFraction * (familyTotalCells cols : ℚ) < (familyNewlyNulled flags cols : ℚ) then
    .error .thresholdExceeded
  else
    .ok ((flags.zip cols).map (fun p => nullifyColumn p.1 p.2))

/-- A span of consecutive row indices `[lo, hi)` of the timeline. -/
structure Span where
  lo : Nat
  hi : Nat
deriving DecidableEq, Repr

/-- Modelled from the spec: span durations (the `duration` column produced
by `add_df_agg_continuity_columns`, which is not under `src/`) — a span of
`k` samples lasts `k * dt` seconds. -/
def spanDurSec (dt : Nat) (s : Span) : Nat := (s.hi - s.lo) * dt

/-- Convert run-length encoded classes into classified spans, starting at
row index `start`. -/
def spansFromRuns (start : Nat) : List (Bool × Nat) → List (Bool × Span)
  | [] => []
  | (c, k) :: rest => (c, ⟨start, start + k⟩) :: spansFromRuns (start + k) rest

/-- Modelled from the spec: run-length encode the per-timestamp
NOT_MISSING/MISSING classification into maximal constant spans (spec §4.5
step 3; `add_df_continuity_columns`/`add_df_agg_continuity_columns` are not
under `src/`).  The Boolean class `true` means NOT_MISSING. -/
def spansOf (cls : List Bool) : List (Bool × Span) := spansFromRuns 0 (rleRuns cls)

/-- Per-timestamp classification, from source line 633: a timestamp is
NOT_MISSING when the horizontal sum of the per-family missing counts is at
most `missing_col_thr`. -/
def classifyTimestep (missingColThr : Nat) (perFamilyMissing : List Nat) : Bool :=
  perFamilyMissing.sum ≤ missingColThr

/-- Classify the whole timeline; `counts` holds, per timestamp, the list of
per-family missing-column counts. -/
def classifyTimeline (missingColThr : Nat) (counts : List (List Nat)) : List Bool :=
  counts.map (classifyTimestep missingColThr)

/-- Reclassification of a span (source lines 644-648): a MISSING span whose
duration is at most `missing_duration_thr` becomes NOT_MISSING; longer
MISSING spans keep their class. -/
def reclassifySpan (dt missingDurThr : Nat) (p : Bool × Span) : Bool × Span :=
  (p.1 || decide (spanDurSec dt p.2 ≤ missingDurThr), p.2)

/-- The combined NOT_MISSING span list after reclassification, in
chronological order (the source concatenates the NOT_MISSING spans with the
short MISSING spans and re-sorts by start time, lines 644-646; on the
chronologically ordered span list this keeps exactly the spans whose
reclassified class is NOT_MISSING). -/
def notMissingSpans (dt missingDurThr : Nat) (spans : List (Bool × Span)) : List Span :=
  ((spans.map (reclassifySpan dt missingDurThr)).filter (fun p => p.1)).map (fun p => p.2)

/-- Prepend a span to an already merged span list, coalescing it with the
first span of the list when the two are contiguous. -/
def mergeConsSpan (s : Span) : List Span → List Span
  | [] => [s]
  | t :: out => if s.hi = t.lo then ⟨s.lo, t.hi⟩ :: out else s :: t :: out

/-- Modelled from the spec: `merge_adjacent_periods` (source line 654, not
under `src/`) merges adjacent spans that are contiguous at the nominal
sampling interval into single spans (spec §4.5 step 5). -/
def mergeAdjacentSpans : List Span → List Span
  | [] => []
  | s :: rest => mergeConsSpan s (mergeAdjacentSpans rest)

/-- Error of the continuity-segmentation stage (`NoEligibleSpans` of the
spec's taxonomy; the driver raises a bare `Exception` at line 651). -/
inductive SegmentationError where
  | noEligibleSpans
deriving DecidableEq, Repr

/-- NOT_MISSING spans that survive to the end of the span pipeline: merge
adjacent spans, then keep the spans with `duration >= minimum_not_missing_duration`
(source line 658). -/
def survivingSpans (dt missingDurThr minimumDur : Nat) (spans : List (Bool × Span)) : List Span :=
  (mergeAdjacentSpans (notMissingSpans dt missingDurThr spans)).filter
    (fun s => minimumDur ≤ spanDurSec dt s)

/-- Span-level pipeline of the split stage with the driver's control flow:
after the reclassification concat (lines 644-646) the driver raises when the
NOT_MISSING list is empty (lines 650-651), and only then merges adjacent
spans and discards the too-short ones (lines 653-658). -/
def segmentSpans (dt missingDurThr minimumDur : Nat) (spans : List (Bool × Span)) :
    Except SegmentationError (List Span) :=
  if (notMissingSpans dt missingDurThr spans).isEmpty then
    .error .noEligibleSpans
  else
    .ok (survivingSpans dt missingDurThr minimumDur spans)

/-- Find the position of the span containing row index `i`, if any. -/
def findSpanIdx (i : Nat) : List Span → Option Nat
  | [] => none
  | s :: rest => if s.lo ≤ i ∧ i < s.hi then some 0 else (findSpanIdx i rest).map (· + 1)

/-- Modelled from the spec: `get_continuity_group_index` (source line 703,
not under `src/`) — the continuity-group id of a row is the chronological
position of the surviving span containing its timestamp, and `-1` when the
timestamp falls in no surviving span (spec §4.5 step 7). -/
def continuityGroupIndex (spans : List Span) (i : Nat) : Int :=
  match findSpanIdx i spans with
  | some g => (g : Int)
  | none => -1

/-- Rows of the segmented output: attach the continuity-group id to every
row, then drop the rows with id `-1` (source lines 703-704). -/
def segmentedRows (spans : List Span) (n : Nat) : List (Nat × Int) :=
  ((List.range n).map (fun i => (i, continuityGroupIndex spans i))).filter
    (fun p => p.2 != -1)

/-- The whole continuity-segmentation ("split") stage, from the
per-timestamp missing counts to the rows of the segmented output. -/
def splitStage (dt missingColThr missingDurThr minimumDur : Nat)
    (counts : List (List Nat)) : Except SegmentationError (List (Nat × Int)) :=
  (segmentSpans dt missingDurThr minimumDur (spansOf (classifyTimeline missingColThr counts))).map
    (fun spans => segmentedRows spans counts.length)

/-- `missing_col_thr = max(1, int(len(turbine_ids) * 0.1))`, source line 622. -/
def missingColThrOf (numTurbines : Nat) : Nat := max 1 (numTurbines / 10)

/-- `missing_duration_thr = np.timedelta64(10, "m")`, source line 623, in seconds. -/
def missingDurationThrSec : Nat := 10 * 60

/-- `minimum_not_missing_duration = np.timedelta64(20, "m")`, source line 624, in seconds. -/
def minimumNotMissingDurationSec : Nat := 20 * 60

/-- Wrap a real angle into `[0, 360)`: polars' float `.mod(360.0)`
(Python-style modulo, sign of the divisor). -/
noncomputable def degMod360 (x : ℝ) : ℝ := x - 360 * (⌊x / 360⌋ : ℤ)

/-- The driver's signed wrap of an angle already reduced to `[0, 360)`:
`pl.when(pl.all() > 180.0).then(pl.all() - 360.0).otherwise(pl.all())`
(source lines 217/243/279-281). -/
noncomputable def signedWrap (x : ℝ) : ℝ := if 180 < x then x - 360 else x

/-- Degrees to radians, polars `.radians()`. -/
noncomputable def deg2rad (x : ℝ) : ℝ := x * (Real.pi / 180)

/-- Radians to degrees, polars `.degrees()`. -/
noncomputable def rad2deg (x : ℝ) : ℝ := x * (180 / Real.pi)

/-- Two-argument arctangent with the numpy/polars convention:
`atan2 y x` is the angle of the point `(x, y)` in `(-π, π]`. -/
noncomputable def atan2 (y x : ℝ) : ℝ :=
  if 0 < x then Real.arctan (y / x)
  else if x < 0 then
    (if 0 ≤ y then Real.arctan (y / x) + Real.pi else Real.arctan (y / x) - Real.pi)
  else
    (if 0 < y then Real.pi / 2 else if y < 0 then -(Real.pi / 2) else 0)

/-- Mean of a list of reals (polars `.mean()`); empty list gives `0 / 0 = 0`. -/
noncomputable def meanOf (l : List ℝ) : ℝ := l.sum / l.length

/-- Circular mean in degrees of a list of angles in degrees:
mean of sines and mean of cosines recombined through `atan2` and converted
back to degrees (the `.radians().sin().mean()` / `.cos().mean()` /
`arctan2(...).degrees()` chain of source lines 214-216). -/
noncomputable def circMeanDeg (l : List ℝ) : ℝ :=
  rad2deg (atan2 (meanOf (l.map (fun x => Real.sin (deg2rad x))))
                 (meanOf (l.map (fun x => Real.cos (deg2rad x)))))

/-- One row of the 10-minute-averaged calibration table for one turbine:
its power output, wind direction and nacelle direction together with the
farm-median direction and yaw columns attached at source line 199. -/
structure CalibRow where
  powerOutput : ℝ
  windDirection : ℝ
  nacelleDirection : ℝ
  wdMedian : ℝ
  yawMedian : ℝ

/-- Rows where the turbine reports non-negative power:
`.filter(pl.col(f"power_output_{turbine_id}") >= 0)`, source line 210. -/
noncomputable def operatingRows (rows : List CalibRow) : List CalibRow :=
  rows.filter (fun r => decide (0 ≤ r.powerOutput))

/-- Wind-direction part of the calibration bias (source lines 209-217):
circular mean of `wind_direction - wd_median` over the operating rows,
reduced with `.mod(360)` and the `> 180` signed wrap. -/
noncomputable def wdBiasOf (rows : List CalibRow) : ℝ :=
  signedWrap (degMod360 (circMeanDeg
    ((operatingRows rows).map (fun r => r.windDirection - r.wdMedian))))

/-- Nacelle-direction part of the calibration bias (source lines 209-217):
circular mean of `nacelle_direction - yaw_median` over the operating rows,
reduced with `.mod(360)` and the `> 180` signed wrap. -/
noncomputable def yawBiasOf (rows : List CalibRow) : ℝ :=
  signedWrap (degMod360 (circMeanDeg
    ((operatingRows rows).map (fun r => r.nacelleDirection - r.yawMedian))))

/-- Per-turbine calibration bias,
`bias = 0.5 * (bias.select('wd_bias').item() + bias.select("yaw_bias").item())`
(source line 220). -/
noncomputable def turbineBias (rows : List CalibRow) : ℝ :=
  0.5 * (wdBiasOf rows + yawBiasOf rows)

/-- Sort a list of reals (ascending). -/
noncomputable def sortReals (l : List ℝ) : List ℝ := l.insertionSort (· ≤ ·)

/-- Median of a list of reals: middle element of the sorted list, or the
average of the two middle elements for an even length (the convention of
`np.nanmedian` after nulls are dropped). -/
noncomputable def medianOf (l : List ℝ) : ℝ :=
  if (sortReals l).length % 2 = 1 then
    (sortReals l).getD ((sortReals l).length / 2) 0
  else
    ((sortReals l).getD ((sortReals l).length / 2 - 1) 0
      + (sortReals l).getD ((sortReals l).length / 2) 0) / 2

/-- Median ignoring nulls, as `np.nanmedian` ignores NaN (source lines
187-188 feed polars nulls to numpy as NaN). -/
noncomputable def nanMedian (l : List (Option ℝ)) : ℝ := medianOf l.reduceOption

/-- Farm median direction of one timestamp row (source lines 185-190): the
per-row median is taken independently over the sine projections and over
the cosine projections of the per-turbine direction columns, then
recombined with `arctan2(...).degrees()`. -/
noncomputable def farmDirectionMedian (row : List (Option ℝ)) : ℝ :=
  rad2deg (atan2
    (nanMedian (row.map (Option.map (fun x => Real.sin (deg2rad x)))))
    (nanMedian (row.map (Option.map (fun x => Real.cos (deg2rad x))))))

/-- The naive alternative named by the spec ("NOT a median of raw angles"):
the plain median of the raw angle values of the row. -/
noncomputable def rawAngleMedian (row : List (Option ℝ)) : ℝ := nanMedian row

/-- The constant added to every wind-direction column before any median or
bias computation: `offset = 3.0`, source line 179. -/
noncomputable def windDirOffsetDeg : ℝ := 3.0

/-- The shifted wind-direction signal the calibration stage works on:
`df_query2 = df_query.with_columns((cs.starts_with("wind_direction") + offset).mod(360.0))`,
source line 180. -/
noncomputable def shiftWindDirections (l : List ℝ) : List ℝ :=
  l.map (fun x => degMod360 (x + windDirOffsetDeg))

/-- Calibrated wind-direction output column of one turbine: the shifted
signal with the per-turbine bias subtracted mod 360 (source line 225) and
then the Northing correction subtracted mod 360 (source line 273). -/
noncomputable def calibratedWindDirections (biasVal northing : ℝ) (l : List ℝ) : List ℝ :=
  (shiftWindDirections l).map (fun x => degMod360 (degMod360 (x - biasVal) - northing))

/-- Maximum of a column of reals (empty column defaults to 0; the source
would produce a null there). -/
noncomputable def colMax : List ℝ → ℝ
  | [] => 0
  | x :: xs => xs.foldl max x

/-- Minimum of a column of reals (empty column defaults to 0). -/
noncomputable def colMin : List ℝ → ℝ
  | [] => 0
  | x :: xs => xs.foldl min x

/-- Global maximum of a feature family:
`pl.max_horizontal(cs.starts_with(feature_type).max())`, source line 741. -/
noncomputable def familyMax (cols : List (List ℝ)) : ℝ := colMax (cols.map colMax)

/-- Global minimum of a feature family:
`pl.min_horizontal(cs.starts_with(feature_type).min())`, source line 742. -/
noncomputable def familyMin (cols : List (List ℝ)) : ℝ := colMin (cols.map colMin)

/-- Round to two decimal digits, `pl.all().round(2)` of source line 744
(the tie-breaking convention is immaterial to every result proved here). -/
noncomputable def round2 (x : ℝ) : ℝ := (round (x * 100) : ℤ) / 100

/-- The denominator used by the normalization expression: the difference of
the ROUNDED constants, since source line 748 reads min and max back from the
rounded `norm_vals` frame. -/
noncomputable def normDenom (cols : List (List ℝ)) : ℝ :=
  round2 (familyMax cols) - round2 (familyMin cols)

/-- Normalized value of one cell:
`2.0 * ((x - min) / (max - min)) - 1.0`, source lines 748-749, with the
stored (rounded) constants. -/
noncomputable def normValue (cols : List (List ℝ)) (x : ℝ) : ℝ :=
  2 * ((x - round2 (familyMin cols)) / normDenom cols) - 1

/-- The normalization stage applied to a whole feature family: every cell
of every column is mapped through the affine expression, unconditionally —
the source has no degeneracy check before dividing. -/
noncomputable def normalizeFamily (cols : List (List ℝ)) : List (List ℝ) :=
  cols.map (fun col => col.map (normValue cols))

/-- Modelled from the spec: the inverse affine transform of the round-trip
property, `x = ((y + 1) / 2) * (max - min) + min` with the stored constants. -/
noncomputable def denormValue (cols : List (List ℝ)) (y : ℝ) : ℝ :=
  ((y + 1) / 2) * normDenom cols + round2 (familyMin cols)

/-- The persisted `normalization_consts` row (source lines 744-745): one
`(min, max)` pair of scalars per feature family, rounded to two decimals. -/
noncomputable def normConstsRow (families : List (List (List ℝ))) : List (ℝ × ℝ) :=
  families.map (fun cols => (round2 (familyMin cols), round2 (familyMax cols)))

/-! ### Run-length encoding lemmas -/

theorem expandRuns_rleCons {α : Type} [DecidableEq α] (a : α) (rs : List (α × Nat)) :
    expandRuns (rleCons a rs) = a :: expandRuns rs := by
  cases rs with
  | nil => simp [rleCons, expandRuns]
  | cons p t =>
    obtain ⟨b, k⟩ := p
    by_cases hab : a = b
    · subst hab
      simp [rleCons, expandRuns, List.replicate_succ]
    · simp [rleCons, hab, expandRuns]

theorem expandRuns_rleRuns {α : Type} [DecidableEq α] (l : List α) :
    expandRuns (rleRuns l) = l := by
  induction l with
  | nil => rfl
  | cons a rest ih => simp [rleRuns, expandRuns_rleCons, ih]

theorem rleCons_pos {α : Type} [DecidableEq α] (a : α) (rs : List (α × Nat))
    (h : ∀ p ∈ rs, 0 < p.2) : ∀ p ∈ rleCons a rs, 0 < p.2 := by
  cases rs with
  | nil => simp [rleCons]
  | cons q t =>
    obtain ⟨b, k⟩ := q
    by_cases hab : a = b
    · subst hab
      intro p hp
      rw [rleCons] at hp
      rw [if_pos rfl] at hp
      rcases List.mem_cons.mp hp with rfl | hp
      · simp
      · exact h p (List.mem_cons_of_mem _ hp)
    · intro p hp
      rw [rleCons, if_neg hab] at hp
      rcases List.mem_cons.mp hp with rfl | hp
      · simp
      · exact h p hp

theorem rleRuns_pos {α : Type} [DecidableEq α] (l : List α) :
    ∀ p ∈ rleRuns l, 0 < p.2 := by
  induction l with
  | nil => simp [rleRuns]
  | cons a rest ih => exact rleCons_pos a (rleRuns rest) ih

theorem expandRuns_length {α : Type} (rs : List (α × Nat)) :
    (expandRuns rs).length = (rs.map (fun p => p.2)).sum := by
  induction rs with
  | nil => rfl
  | cons p t ih => simp [expandRuns, ih]

/-! ### Unresponsive-sensor detector lemmas -/

theorem expandFlag_sound {α : Type} (thr : Nat) (rs : List (Option α × Nat)) (i : Nat)
    (h : (expandRuns (rs.map (fun p => (p.1.isSome && decide (thr ≤ p.2), p.2))))[i]?
      = some true) :
    ∃ lo len v, thr ≤ len ∧ lo ≤ i ∧ i < lo + len ∧
      ∀ j, lo ≤ j → j < lo + len → (expandRuns rs)[j]? = some (some v) := by
  induction rs generalizing i with
  | nil => simp [expandRuns] at h
  | cons p rest ih =>
    obtain ⟨ov, k⟩ := p
    simp only [List.map_cons, expandRuns] at h
    by_cases hik : i < k
    · rw [List.getElem?_append_left (by simpa using hik)] at h
      rw [List.getElem?_replicate] at h
      rw [if_pos hik] at h
      have hb : (ov.isSome && decide (thr ≤ k)) = true := by
        exact Option.some.inj h
      rw [Bool.and_eq_true] at hb
      obtain ⟨v, hv⟩ := Option.isSome_iff_exists.mp hb.1
      refine ⟨0, k, v, of_decide_eq_true hb.2, Nat.zero_le _, by omega, ?_⟩
      intro j _ hj
      rw [expandRuns, List.getElem?_append_left (by simpa using (by omega : j < k))]
      rw [List.getElem?_replicate, if_pos (by omega : j < k), hv]
    · rw [List.getElem?_append_right (by simpa using (by omega : k ≤ i))] at h
      rw [List.length_replicate] at h
      obtain ⟨lo, len, v, h1, h2, h3, h4⟩ := ih (i - k) h
      refine ⟨lo + k, len, v, h1, by omega, by omega, ?_⟩
      intro j hj1 hj2
      rw [expandRuns, List.getElem?_append_right (by simp; omega)]
      rw [List.length_replicate]
      exact h4 (j - k) (by omega) (by omega)

theorem unresponsiveFlag_sound {α : Type} [DecidableEq α] (thr : Nat) (l : List (Option α))
    (i : Nat) (h : (unresponsiveFlag thr l)[i]? = some true) :
    ∃ lo len v, thr ≤ len ∧ lo ≤ i ∧ i < lo + len ∧
      ∀ j, lo ≤ j → j < lo + len → l[j]? = some (some v) := by
  have h2 := expandFlag_sound thr (rleRuns l) i h
  rwa [expandRuns_rleRuns] at h2

theorem unresponsiveFlag_length {α : Type} [DecidableEq α] (thr : Nat) (l : List (Option α)) :
    (unresponsiveFlag thr l).length = l.length := by
  unfold unresponsiveFlag
  rw [expandRuns_length]
  conv_rhs => rw [← expandRuns_rleRuns l]
  rw [expandRuns_length, List.map_map]
  rfl

theorem unresponsiveFlag_null {α : Type} [DecidableEq α] (thr : Nat) (l : List (Option α))
    (i : Nat) (h : l[i]? = some none) :
    (unresponsiveFlag thr l)[i]? = some false := by
  have hi : i < l.length := by
    obtain ⟨hlt, -⟩ := List.getElem?_eq_some.mp h
    exact hlt
  have hi2 : i < (unresponsiveFlag thr l).length := by
    rw [unresponsiveFlag_length]; exact hi
  cases hb : (unresponsiveFlag thr l)[i]? with
  | none =>
    exfalso
    rw [List.getElem?_eq_none_iff] at hb
    omega
  | some b =>
    cases b with
    | false => rfl
    | true =>
      exfalso
      obtain ⟨lo, len, v, -, h2, h3, h4⟩ := unresponsiveFlag_sound thr l i hb
      have hw := h4 i h2 h3
      rw [h] at hw
      simp at hw

/-! ### Span pipeline lemmas -/

theorem spansFromRuns_bounds (rs : List (Bool × Nat)) :
    ∀ start, ∀ p ∈ spansFromRuns start rs,
      start ≤ p.2.lo ∧ p.2.hi ≤ start + (rs.map (fun q => q.2)).sum := by
  induction rs with
  | nil => simp [spansFromRuns]
  | cons q rest ih =>
    obtain ⟨c, k⟩ := q
    intro start p hp
    rw [spansFromRuns] at hp
    rcases List.mem_cons.mp hp with rfl | hp
    · simp [List.map_cons, List.sum_cons]
    · obtain ⟨h1, h2⟩ := ih (start + k) p hp
      simp only [List.map_cons, List.sum_cons]
      omega

theorem spansFromRuns_nonempty (rs : List (Bool × Nat)) (hpos : ∀ q ∈ rs, 0 < q.2) :
    ∀ start, ∀ p ∈ spansFromRuns start rs, p.2.lo < p.2.hi := by
  induction rs with
  | nil => simp [spansFromRuns]
  | cons q rest ih =>
    obtain ⟨c, k⟩ := q
    intro start p hp
    rw [spansFromRuns] at hp
    rcases List.mem_cons.mp hp with rfl | hp
    · have : 0 < k := hpos (c, k) (List.mem_cons_self _ _)
      simpa using this
    · exact ih (fun x hx => hpos x (List.mem_cons_of_mem _ hx)) (start + k) p hp

theorem spansFromRuns_pairwise (rs : List (Bool × Nat)) (start : Nat) :
    (spansFromRuns start rs).Pairwise (fun a b => a.2.hi ≤ b.2.lo) := by
  induction rs generalizing start with
  | nil => simp [spansFromRuns]
  | cons q rest ih =>
    obtain ⟨c, k⟩ := q
    rw [spansFromRuns]
    refine List.Pairwise.cons ?_ (ih (start + k))
    intro b hb
    have h := (spansFromRuns_bounds rest (start + k) b hb).1
    simpa using h

theorem spansOf_nonempty (cls : List Bool) : ∀ p ∈ spansOf cls, p.2.lo < p.2.hi :=
  spansFromRuns_nonempty (rleRuns cls) (rleRuns_pos cls) 0

theorem rleRuns_sum {α : Type} [DecidableEq α] (l : List α) :
    ((rleRuns l).map (fun q => q.2)).sum = l.length := by
  conv_rhs => rw [← expandRuns_rleRuns l]
  rw [expandRuns_length]

theorem spansOf_hi_le (cls : List Bool) : ∀ p ∈ spansOf cls, p.2.hi ≤ cls.length := by
  intro p hp
  have h := (spansFromRuns_bounds (rleRuns cls) 0 p hp).2
  rw [rleRuns_sum] at h
  omega

theorem spansOf_pairwise (cls : List Bool) :
    (spansOf cls).Pairwise (fun a b => a.2.hi ≤ b.2.lo) :=
  spansFromRuns_pairwise (rleRuns cls) 0

theorem notMissingSpans_mem (dt mdThr : Nat) (spans : List (Bool × Span)) :
    ∀ s ∈ notMissingSpans dt mdThr spans, ∃ p ∈ spans, p.2 = s := by
  intro s hs
  unfold notMissingSpans at hs
  obtain ⟨q, hq, hqs⟩ := List.mem_map.mp hs
  have hq2 := (List.mem_filter.mp hq).1
  obtain ⟨p, hp, hpq⟩ := List.mem_map.mp hq2
  refine ⟨p, hp, ?_⟩
  rw [← hqs, ← hpq]
  rfl

theorem notMissingSpans_pairwise (dt mdThr : Nat) (spans : List (Bool × Span))
    (h : spans.Pairwise (fun a b => a.2.hi ≤ b.2.lo)) :
    (notMissingSpans dt mdThr spans).Pairwise (fun a b => a.hi ≤ b.lo) := by
  unfold notMissingSpans
  rw [List.pairwise_map]
  apply List.Pairwise.filter
  rw [List.pairwise_map]
  exact h

theorem mergeAdjacentSpans_invariant (l : List Span)
    (hne : ∀ s ∈ l, s.lo < s.hi)
    (hpw : l.Pairwise (fun a b => a.hi ≤ b.lo)) :
    (∀ s ∈ mergeAdjacentSpans l, s.lo < s.hi) ∧
    (mergeAdjacentSpans l).Pairwise (fun a b => a.hi ≤ b.lo) ∧
    (∀ s ∈ mergeAdjacentSpans l,
      (∃ u ∈ l, u.lo = s.lo) ∧ (∃ v ∈ l, v.hi = s.hi)) := by
  induction l with
  | nil => simp [mergeAdjacentSpans]
  | cons s rest ih =>
    have hne' : ∀ x ∈ rest, x.lo < x.hi := fun x hx => hne x (List.mem_cons_of_mem _ hx)
    obtain ⟨ihne, ihpw, ihprov⟩ := ih hne' hpw.of_cons
    rw [mergeAdjacentSpans]
    cases hm : mergeAdjacentSpans rest with
    | nil =>
      rw [mergeConsSpan]
      refine ⟨?_, ?_, ?_⟩
      · intro x hx
        rcases List.mem_cons.mp hx with rfl | hx
        · exact hne x (List.mem_cons_self _ _)
        · simp at hx
      · simp
      · intro x hx
        rcases List.mem_cons.mp hx with rfl | hx
        · exact ⟨⟨x, List.mem_cons_self _ _, rfl⟩, ⟨x, List.mem_cons_self _ _, rfl⟩⟩
        · simp at hx
    | cons t out =>
      rw [hm] at ihne ihpw ihprov
      by_cases hst : s.hi = t.lo
      · rw [mergeConsSpan, if_pos hst]
        refine ⟨?_, ?_, ?_⟩
        · intro x hx
          rcases List.mem_cons.mp hx with rfl | hx
          · have ht : t.lo < t.hi := ihne t (List.mem_cons_self _ _)
            have hs : s.lo < s.hi := hne s (List.mem_cons_self _ _)
            simp only []
            omega
          · exact ihne x (List.mem_cons_of_mem _ hx)
        · refine List.Pairwise.cons ?_ ihpw.of_cons
          intro b hb
          have := List.rel_of_pairwise_cons ihpw hb
          simpa using this
        · intro x hx
          rcases List.mem_cons.mp hx with rfl | hx
          · refine ⟨⟨s, List.mem_cons_self _ _, rfl⟩, ?_⟩
            obtain ⟨-, v, hv, hvh⟩ := ihprov t (List.mem_cons_self _ _)
            exact ⟨v, List.mem_cons_of_mem _ hv, hvh⟩
          · obtain ⟨⟨u, hu, hul⟩, ⟨v, hv, hvh⟩⟩ := ihprov x (List.mem_cons_of_mem _ hx)
            exact ⟨⟨u, List.mem_cons_of_mem _ hu, hul⟩, ⟨v, List.mem_cons_of_mem _ hv, hvh⟩⟩
      · rw [mergeConsSpan, if_neg hst]
        refine ⟨?_, ?_, ?_⟩
        · intro x hx
          rcases List.mem_cons.mp hx with rfl | hx
          · exact hne x (List.mem_cons_self _ _)
          · exact ihne x hx
        · refine List.Pairwise.cons ?_ ihpw
          intro b hb
          obtain ⟨⟨u, hu, hul⟩, -⟩ := ihprov b hb
          have hsu : s.hi ≤ u.lo := List.rel_of_pairwise_cons hpw hu
          omega
        · intro x hx
          rcases List.mem_cons.mp hx with rfl | hx
          · exact ⟨⟨x, List.mem_cons_self _ _, rfl⟩, ⟨x, List.mem_cons_self _ _, rfl⟩⟩
          · obtain ⟨⟨u, hu, hul⟩, ⟨v, hv, hvh⟩⟩ := ihprov x hx
            exact ⟨⟨u, List.mem_cons_of_mem _ hu, hul⟩, ⟨v, List.mem_cons_of_mem _ hv, hvh⟩⟩

theorem findSpanIdx_sound (spans : List Span) (i g : Nat)
    (h : findSpanIdx i spans = some g) :
    ∃ s, spans[g]? = some s ∧ s.lo ≤ i ∧ i < s.hi := by
  induction spans generalizing g with
  | nil => simp [findSpanIdx] at h
  | cons t rest ih =>
    by_cases hc : t.lo ≤ i ∧ i < t.hi
    · rw [findSpanIdx, if_pos hc] at h
      obtain rfl : (0 : Nat) = g := Option.some.inj h
      exact ⟨t, by simp, hc.1, hc.2⟩
    · rw [findSpanIdx, if_neg hc] at h
      rw [Option.map_eq_some'] at h
      obtain ⟨g', hg', rfl⟩ := h
      obtain ⟨s, hs, h1, h2⟩ := ih g' hg'
      exact ⟨s, by simpa using hs, h1, h2⟩

theorem findSpanIdx_complete (spans : List Span) (i g : Nat) (s : Span)
    (hpw : spans.Pairwise (fun a b => a.hi ≤ b.lo))
    (hg : spans[g]? = some s) (h1 : s.lo ≤ i) (h2 : i < s.hi) :
    findSpanIdx i spans = some g := by
  induction spans generalizing g with
  | nil => simp at hg
  | cons t rest ih =>
    cases g with
    | zero =>
      obtain rfl : t = s := by simpa using hg
      rw [findSpanIdx, if_pos ⟨h1, h2⟩]
    | succ g' =>
      have hgs : rest[g']? = some s := by simpa using hg
      have hmem : s ∈ rest := List.getElem?_mem hgs
      have hth : t.hi ≤ s.lo := List.rel_of_pairwise_cons hpw hmem
      have hc : ¬ (t.lo ≤ i ∧ i < t.hi) := by omega
      rw [findSpanIdx, if_neg hc, ih g' hpw.of_cons hgs]
      rfl

/-! ### Range and chain helpers -/

theorem range'_snoc (lo k : Nat) :
    List.range' lo k ++ [lo + k] = List.range' lo (k + 1) := by
  induction k generalizing lo with
  | zero => simp
  | succ k ih =>
    have h1 : List.range' lo (k + 1) = lo :: List.range' (lo + 1) k := List.range'_succ lo k 1
    have h2 : List.range' lo (k + 2) = lo :: List.range' (lo + 1) (k + 1) :=
      List.range'_succ lo (k + 1) 1
    have h3 : lo + (k + 1) = (lo + 1) + k := by omega
    rw [h1, h2, List.cons_append, h3, ih]

theorem filter_range_ge (lo n : Nat) :
    (List.range n).filter (fun i => decide (lo ≤ i)) = List.range' lo (n - lo) := by
  induction n with
  | zero => simp
  | succ n ih =>
    rw [List.range_succ, List.filter_append, ih]
    by_cases h : lo ≤ n
    · have h1 : (List.filter (fun i => decide (lo ≤ i)) [n]) = [n] := by simp [h]
      have h2 : lo + (n - lo) = n := by omega
      have h3 : n + 1 - lo = (n - lo) + 1 := by omega
      rw [h1, h3, ← range'_snoc, h2]
    · have h1 : (List.filter (fun i => decide (lo ≤ i)) [n]) = [] := by simp [h]
      have h2 : n - lo = 0 := by omega
      have h3 : n + 1 - lo = 0 := by omega
      rw [h1, h2, h3, List.append_nil]

theorem filter_range_interval (lo hi n : Nat) (h : hi ≤ n) :
    (List.range n).filter (fun i => decide (lo ≤ i) && decide (i < hi))
      = List.range' lo (hi - lo) := by
  induction n with
  | zero =>
    have hh : hi = 0 := by omega
    subst hh
    simp
  | succ n ih =>
    by_cases hn : hi ≤ n
    · rw [List.range_succ, List.filter_append, ih hn]
      have hlt : ¬ (n < hi) := by omega
      simp [hlt]
    · have hh : hi = n + 1 := by omega
      subst hh
      have hcg : ∀ i ∈ List.range (n + 1),
          (decide (lo ≤ i) && decide (i < n + 1)) = decide (lo ≤ i) := by
        intro i hi'
        rw [List.mem_range] at hi'
        simp [hi']
      rw [List.filter_congr hcg, filter_range_ge lo (n + 1)]

theorem chain_range' (lo k : Nat) :
    List.Chain' (fun a b => b = a + 1) (List.range' lo k) := by
  induction k generalizing lo with
  | zero => simp
  | succ k ih =>
    rw [List.range'_succ lo k 1]
    refine List.chain'_cons'.mpr ⟨?_, ih (lo + 1)⟩
    intro h hh
    cases k with
    | zero => simp at hh
    | succ k =>
      rw [List.range'_succ (lo + 1) k 1] at hh
      simp at hh
      omega

/-! ### Segmented rows lemmas -/

theorem mem_segmentedRows (spans : List Span) (n : Nat) (p : Nat × Int) :
    p ∈ segmentedRows spans n ↔
      p.1 < n ∧ p.2 = continuityGroupIndex spans p.1 ∧ p.2 ≠ -1 := by
  unfold segmentedRows
  rw [List.mem_filter, List.mem_map]
  constructor
  · rintro ⟨⟨i, hir, hpe⟩, hne⟩
    subst hpe
    rw [List.mem_range] at hir
    refine ⟨hir, rfl, ?_⟩
    simpa using hne
  · rintro ⟨h1, h2, h3⟩
    refine ⟨⟨p.1, by simpa [List.mem_range] using h1, ?_⟩, by simpa using h3⟩
    obtain ⟨a, b⟩ := p
    simp only [] at h2
    rw [h2]

theorem cgi_ne_neg_one (spans : List Span) (i : Nat)
    (h : continuityGroupIndex spans i ≠ -1) :
    ∃ g : Nat, findSpanIdx i spans = some g ∧ continuityGroupIndex spans i = (g : Int) := by
  unfold continuityGroupIndex at h ⊢
  cases hf : findSpanIdx i spans with
  | none => rw [hf] at h; simp at h
  | some g => exact ⟨g, rfl, rfl⟩

theorem cgi_of_findSpanIdx (spans : List Span) (i g : Nat)
    (h : findSpanIdx i spans = some g) :
    continuityGroupIndex spans i = (g : Int) := by
  unfold continuityGroupIndex
  rw [h]

theorem segRows_filter_eq (spans : List Span) (n : Nat) (g : Nat) (s : Span)
    (hpw : spans.Pairwise (fun a b => a.hi ≤ b.lo))
    (hg : spans[g]? = some s) (hhi : s.hi ≤ n) :
    (segmentedRows spans n).filter (fun p => p.2 == (g : Int))
      = (List.range' s.lo (s.hi - s.lo)).map (fun i => (i, (g : Int))) := by
  unfold segmentedRows
  rw [List.filter_filter, List.filter_map]
  have hcg : ∀ i ∈ List.range n,
      ((fun p : Nat × Int => p.2 == (g : Int) && p.2 != -1) ∘
        (fun i => (i, continuityGroupIndex spans i))) i
      = (decide (s.lo ≤ i) && decide (i < s.hi)) := by
    intro i hir
    simp only [Function.comp]
    by_cases hin : s.lo ≤ i ∧ i < s.hi
    · have hcgi : continuityGroupIndex spans i = (g : Int) :=
        cgi_of_findSpanIdx spans i g (findSpanIdx_complete spans i g s hpw hg hin.1 hin.2)
      have hne : ((g : Int) == -1) = false := by
        simp only [beq_eq_false_iff_ne]
        omega
      simp [hcgi, hne, hin.1, hin.2]
    · have hne : (continuityGroupIndex spans i == (g : Int)) = false := by
        rw [beq_eq_false_iff_ne]
        intro hcgi
        obtain ⟨g', hfind, hcast⟩ := cgi_ne_neg_one spans i (by rw [hcgi]; omega)
        rw [hcgi] at hcast
        have hgg : g' = g := by omega
        subst hgg
        obtain ⟨s', hs', hb1, hb2⟩ := findSpanIdx_sound spans i g' hfind
        rw [hg] at hs'
        obtain rfl : s = s' := Option.some.inj hs'
        exact hin ⟨hb1, hb2⟩
      have hdec : (decide (s.lo ≤ i) && decide (i < s.hi)) = false := by
        rcases Decidable.not_and_iff_or_not.mp hin with hx | hx <;> simp [hx]
      simp [hne, hdec]
  rw [List.filter_congr hcg, filter_range_interval s.lo s.hi n hhi]
  apply List.map_congr_left
  intro i hi'
  rw [List.mem_range'_1] at hi'
  have hib : s.lo ≤ i ∧ i < s.hi := by omega
  have hcgi : continuityGroupIndex spans i = (g : Int) :=
    cgi_of_findSpanIdx spans i g (findSpanIdx_complete spans i g s hpw hg hib.1 hib.2)
  rw [hcgi]

/-! ### Claim theorems: continuity segmentation -/

/-- C2: for every table produced by the continuity-segmentation stage, each
remaining row carries exactly one continuity-group id, no timestamp appears
in two groups, within each group the timestamps (in sorted order) have
constant successive difference `dt`, group ids are strictly increasing with
start time (row order), and every row whose timestamp falls in no surviving
span (id `-1`) has been dropped from the output. -/
theorem segmentation_invariants (dt mcThr mdThr minDur t0 : Nat)
    (counts : List (List Nat)) (out : List (Nat × Int))
    (h : splitStage dt mcThr mdThr minDur counts = .ok out) :
    (∀ p ∈ out, ∀ q ∈ out, p.1 = q.1 → p.2 = q.2) ∧
    (∀ p ∈ out, p.2 ≠ -1) ∧
    (∀ g : Int, List.Chain' (fun a b => b = a + dt)
      ((out.filter (fun p => p.2 == g)).map (fun p => t0 + p.1 * dt))) ∧
    (∀ p ∈ out, ∀ q ∈ out, p.2 < q.2 → p.1 < q.1) := by
  unfold splitStage segmentSpans at h
  by_cases he : (notMissingSpans dt mdThr (spansOf (classifyTimeline mcThr counts))).isEmpty
  · rw [if_pos he] at h
    simp [Except.map] at h
  · rw [if_neg he] at h
    simp only [Except.map, Except.ok.injEq] at h
    subst h
    set spans := survivingSpans dt mdThr minDur (spansOf (classifyTimeline mcThr counts))
      with hspdef
    set n := counts.length with hndef
    have hnm_pw := notMissingSpans_pairwise dt mdThr _
      (spansOf_pairwise (classifyTimeline mcThr counts))
    have hnm_ne : ∀ s ∈ notMissingSpans dt mdThr (spansOf (classifyTimeline mcThr counts)),
        s.lo < s.hi := by
      intro s hs
      obtain ⟨p, hp, hps⟩ := notMissingSpans_mem dt mdThr _ s hs
      rw [← hps]
      exact spansOf_nonempty _ p hp
    have hnm_hi : ∀ s ∈ notMissingSpans dt mdThr (spansOf (classifyTimeline mcThr counts)),
        s.hi ≤ n := by
      intro s hs
      obtain ⟨p, hp, hps⟩ := notMissingSpans_mem dt mdThr _ s hs
      have h2 := spansOf_hi_le _ p hp
      rw [hps] at h2
      simpa [classifyTimeline, hndef] using h2
    obtain ⟨hm_ne, hm_pw, hm_prov⟩ := mergeAdjacentSpans_invariant _ hnm_ne hnm_pw
    have hsp_ne : ∀ s ∈ spans, s.lo < s.hi := fun s hs =>
      hm_ne s (List.mem_of_mem_filter hs)
    have hsp_pw : spans.Pairwise (fun a b => a.hi ≤ b.lo) := hm_pw.filter _
    have hsp_hi : ∀ s ∈ spans, s.hi ≤ n := by
      intro s hs
      obtain ⟨-, v, hv, hvh⟩ := hm_prov s (List.mem_of_mem_filter hs)
      rw [← hvh]
      exact hnm_hi v hv
    refine ⟨?_, ?_, ?_, ?_⟩
    · intro p hp q hq hpq
      have h1 := (mem_segmentedRows spans n p).mp hp
      have h2 := (mem_segmentedRows spans n q).mp hq
      rw [h1.2.1, h2.2.1, hpq]
    · intro p hp
      exact ((mem_segmentedRows spans n p).mp hp).2.2
    · intro g
      by_cases hex : ∃ gN : Nat, ∃ s, g = (gN : Int) ∧ spans[gN]? = some s
      · obtain ⟨gN, s, rfl, hg⟩ := hex
        have hhi : s.hi ≤ n := hsp_hi s (List.getElem?_mem hg)
        rw [segRows_filter_eq spans n gN s hsp_pw hg hhi, List.map_map, List.chain'_map]
        refine List.Chain'.imp ?_ (chain_range' s.lo (s.hi - s.lo))
        intro a b hab
        subst hab
        show t0 + (a + 1) * dt = t0 + a * dt + dt
        ring
      · have hnil : (segmentedRows spans n).filter (fun p => p.2 == g) = [] := by
          rw [List.filter_eq_nil_iff]
          intro p hp hbeq
          rw [beq_iff_eq] at hbeq
          have h1 := (mem_segmentedRows spans n p).mp hp
          have hcgine : continuityGroupIndex spans p.1 ≠ -1 := by
            rw [← h1.2.1]
            exact h1.2.2
          obtain ⟨gN, hfind, hcast⟩ := cgi_ne_neg_one spans p.1 hcgine
          obtain ⟨s, hs, -, -⟩ := findSpanIdx_sound spans p.1 gN hfind
          exact hex ⟨gN, s, by rw [← hbeq, h1.2.1, hcast], hs⟩
        rw [hnil]
        simp
    · intro p hp q hq hlt
      have h1 := (mem_segmentedRows spans n p).mp hp
      have h2 := (mem_segmentedRows spans n q).mp hq
      have hcgine1 : continuityGroupIndex spans p.1 ≠ -1 := by
        rw [← h1.2.1]; exact h1.2.2
      have hcgine2 : continuityGroupIndex spans q.1 ≠ -1 := by
        rw [← h2.2.1]; exact h2.2.2
      obtain ⟨gp, hfp, hcp⟩ := cgi_ne_neg_one spans p.1 hcgine1
      obtain ⟨gq, hfq, hcq⟩ := cgi_ne_neg_one spans q.1 hcgine2
      obtain ⟨sp, hsp1, hsp2, hsp3⟩ := findSpanIdx_sound spans p.1 gp hfp
      obtain ⟨sq, hsq1, hsq2, hsq3⟩ := findSpanIdx_sound spans q.1 gq hfq
      have hglt : gp < gq := by
        rw [h1.2.1, hcp, h2.2.1, hcq] at hlt
        exact_mod_cast hlt
      obtain ⟨hple, hpeq⟩ := List.getElem?_eq_some.mp hsp1
      obtain ⟨hqle, hqeq⟩ := List.getElem?_eq_some.mp hsq1
      have hrel := (List.pairwise_iff_getElem.mp hsp_pw) gp gq hple hqle hglt
      rw [hpeq, hqeq] at hrel
      omega

/-- Witness for C2: evaluating the split stage on a nine-timestep timeline
with one long MISSING gap yields two continuity groups satisfying every
conjunct. -/
theorem segmentation_invariants_witness :
    (∀ p ∈ [((0:Nat), (0:Int)), (1, 0), (2, 0), (6, 1), (7, 1), (8, 1)],
      ∀ q ∈ [((0:Nat), (0:Int)), (1, 0), (2, 0), (6, 1), (7, 1), (8, 1)],
        p.1 = q.1 → p.2 = q.2) ∧
    (∀ p ∈ [((0:Nat), (0:Int)), (1, 0), (2, 0), (6, 1), (7, 1), (8, 1)], p.2 ≠ -1) ∧
    (∀ g : Int, List.Chain' (fun a b => b = a + 5)
      (([((0:Nat), (0:Int)), (1, 0), (2, 0), (6, 1), (7, 1), (8, 1)].filter
        (fun p => p.2 == g)).map (fun p => 100 + p.1 * 5))) ∧
    (∀ p ∈ [((0:Nat), (0:Int)), (1, 0), (2, 0), (6, 1), (7, 1), (8, 1)],
      ∀ q ∈ [((0:Nat), (0:Int)), (1, 0), (2, 0), (6, 1), (7, 1), (8, 1)],
        p.2 < q.2 → p.1 < q.1) :=
  segmentation_invariants 5 1 10 15 100 [[0], [0], [0], [5], [5], [5], [0], [0], [0]]
    [(0, 0), (1, 0), (2, 0), (6, 1), (7, 1), (8, 1)] rfl

/-- C3 counterexample: with `dt = 5`, `missing_duration_thr = 10` and
`minimum_not_missing_duration = 1000`, a fully NOT_MISSING two-row timeline
leaves zero spans after the step-6 discard, yet the stage returns an
(empty) segmented output instead of raising `NoEligibleSpans`: the driver's
emptiness check (source lines 650-651) runs before `merge_adjacent_periods`
and before the minimum-duration filter (source line 658), not after step 6. -/
theorem segmentation_step6_no_error_cex :
    survivingSpans 5 10 1000 (spansOf (classifyTimeline 0 [[0], [0]])) = [] ∧
    splitStage 5 0 10 1000 [[0], [0]] = .ok [] := by
  exact ⟨rfl, rfl⟩

/-- C3 (amended): the split stage fails with `NoEligibleSpans` exactly when
zero spans survive step 4's reclassification (the concatenated NOT_MISSING
span list is empty before merging and before the minimum-duration discard);
when it fails, no segmented output is produced.  Zero spans surviving the
step-6 discard alone does not raise. -/
theorem segmentation_error_iff_reclass_empty (dt mcThr mdThr minDur : Nat)
    (counts : List (List Nat)) :
    (splitStage dt mcThr mdThr minDur counts = .error .noEligibleSpans ↔
      notMissingSpans dt mdThr (spansOf (classifyTimeline mcThr counts)) = []) ∧
    (splitStage dt mcThr mdThr minDur counts = .error .noEligibleSpans →
      ∀ out, splitStage dt mcThr mdThr minDur counts ≠ .ok out) := by
  constructor
  · unfold splitStage segmentSpans
    by_cases he : (notMissingSpans dt mdThr (spansOf (classifyTimeline mcThr counts))).isEmpty
    · rw [if_pos he]
      rw [List.isEmpty_iff] at he
      simp [Except.map, he]
    · rw [if_neg he]
      rw [List.isEmpty_iff] at he
      simp [Except.map, he]
  · intro herr out hok
    rw [herr] at hok
    exact Except.noConfusion hok

/-- Witness for C3 (amended): on a two-row timeline whose single MISSING
span is short enough to be reclassified, the stage raises no error and the
equivalence holds. -/
theorem segmentation_error_iff_reclass_empty_witness :
    (splitStage 5 0 10 1000 [[5], [5]] = .error .noEligibleSpans ↔
      notMissingSpans 5 10 (spansOf (classifyTimeline 0 [[5], [5]])) = []) ∧
    (splitStage 5 0 10 1000 [[5], [5]] = .error .noEligibleSpans →
      ∀ out, splitStage 5 0 10 1000 [[5], [5]] ≠ .ok out) :=
  segmentation_error_iff_reclass_empty 5 0 10 1000 [[5], [5]]

/-- C4: a MISSING span is reclassified as NOT_MISSING iff its duration is at
most `missing_duration_thr` (`duration <= missing_duration_thr`, source line
645: strictly longer spans remain MISSING, source line 648), a NOT_MISSING
span always stays NOT_MISSING, and after merging a NOT_MISSING span survives
iff its duration is not strictly below `minimum_not_missing_duration`
(`duration >= minimum_not_missing_duration`, source line 658: spans with
duration exactly equal to the minimum are kept). -/
theorem span_filter_boundaries (dt mdThr minDur : Nat) (s : Span)
    (spans : List (Bool × Span))
    (hmem : s ∈ mergeAdjacentSpans (notMissingSpans dt mdThr spans)) :
    ((reclassifySpan dt mdThr (false, s)).1 = true ↔ spanDurSec dt s ≤ mdThr) ∧
    ((reclassifySpan dt mdThr (true, s)).1 = true) ∧
    (s ∈ survivingSpans dt mdThr minDur spans ↔ ¬ spanDurSec dt s < minDur) := by
  refine ⟨?_, ?_, ?_⟩
  · simp [reclassifySpan]
  · simp [reclassifySpan]
  · unfold survivingSpans
    rw [List.mem_filter]
    constructor
    · rintro ⟨-, hd⟩
      simp at hd
      omega
    · intro hd
      refine ⟨hmem, ?_⟩
      simp only [decide_eq_true_eq]
      omega

/-- Witness for C4: a one-sample span of duration 5 with
`minimum_not_missing_duration = 5` sits exactly at the boundary and is kept. -/
theorem span_filter_boundaries_witness :
    ((reclassifySpan 5 10 (false, ⟨0, 1⟩)).1 = true ↔ spanDurSec 5 ⟨0, 1⟩ ≤ 10) ∧
    ((reclassifySpan 5 10 (true, ⟨0, 1⟩)).1 = true) ∧
    ((⟨0, 1⟩ : Span) ∈ survivingSpans 5 10 5 [(true, ⟨0, 1⟩)] ↔
      ¬ spanDurSec 5 ⟨0, 1⟩ < 5) :=
  span_filter_boundaries 5 10 5 ⟨0, 1⟩ [(true, ⟨0, 1⟩)] (by decide)

/-! ### Claim theorems: conditional nullifier and unresponsive detector -/

/-- C1: whenever the fraction of newly-nulled cells relative to total cells
of the column family exceeds `maxNullFraction`, the conditional nullifier
fails with `ThresholdExceeded`, returning no table (so the input is left
unmodified — the model is pure, an error carries no partial write); in
particular a mask marking 100 percent of the (non-null) cells with
`maxNullFraction = 1/2` fails. -/
theorem nullifier_threshold_exceeded {α : Type} (maxF : ℚ)
    (flags : List (List Bool)) (cols : List (List (Option α)))
    (htot : 0 < familyTotalCells cols) :
    (((familyNewlyNulled flags cols : ℚ) / (familyTotalCells cols : ℚ) > maxF) →
      conditionalFilter maxF flags cols = .error .thresholdExceeded) ∧
    (familyNewlyNulled flags cols = familyTotalCells cols →
      conditionalFilter (1/2) flags cols = .error .thresholdExceeded) := by
  have htotQ : (0 : ℚ) < (familyTotalCells cols : ℚ) := by exact_mod_cast htot
  constructor
  · intro hfrac
    rw [gt_iff_lt, lt_div_iff₀ htotQ] at hfrac
    unfold conditionalFilter
    rw [if_pos hfrac]
  · intro heq
    unfold conditionalFilter
    rw [if_pos]
    rw [heq]
    linarith
/-- Witness for C1: one fully flagged two-cell non-null column with
`maxNullFraction = 1/2`. -/
theorem nullifier_threshold_exceeded_witness :
    ((((familyNewlyNulled [[true, true]] [[some (1 : Int), some 2]] : ℚ)
        / (familyTotalCells [[some (1 : Int), some 2]] : ℚ)) > (1 / 2 : ℚ)) →
      conditionalFilter (1 / 2) [[true, true]] [[some (1 : Int), some 2]]
        = .error .thresholdExceeded) ∧
    (familyNewlyNulled [[true, true]] [[some (1 : Int), some 2]]
        = familyTotalCells [[some (1 : Int), some 2]] →
      conditionalFilter (1 / 2) [[true, true]] [[some (1 : Int), some 2]]
        = .error .thresholdExceeded) :=
  nullifier_threshold_exceeded (1 / 2) [[true, true]] [[some 1, some 2]] (by decide)

/-- C7: in every run where it is enabled, the unresponsive-sensor stage
executes before any other nullification stage (it is the head of the
executed stage sequence); its threshold is 20 minutes divided by `dt = 5`
seconds, i.e. 240 samples; it flags a cell only when the cell lies in a run
of at least 240 consecutive identical non-null values, and a cell that is
null is never flagged (a run broken by a null is not counted as stuck). -/
theorem unresponsive_detector_props {α : Type} [DecidableEq α]
    (filts : List String) (hmem : ("unresponsive_sensor") ∈ filts)
    (l : List (Option α)) (i : Nat) :
    stuckThreshold dtSeconds = 240 ∧
    (executedNullificationStages filts).head? = some ("unresponsive_sensor") ∧
    ((unresponsiveFlag (stuckThreshold dtSeconds) l)[i]? = some true →
      ∃ lo len v, 240 ≤ len ∧ lo ≤ i ∧ i < lo + len ∧
        ∀ j, lo ≤ j → j < lo + len → l[j]? = some (some v)) ∧
    (l[i]? = some none →
      (unresponsiveFlag (stuckThreshold dtSeconds) l)[i]? = some false) := by
  refine ⟨rfl, ?_, ?_, ?_⟩
  · have hc : filts.contains ("unresponsive_sensor") = true := by
      simpa [List.contains] using hmem
    unfold executedNullificationStages nullificationStageOrder
    rw [List.filter_cons, if_pos hc]
    rfl
  · intro h
    exact unresponsiveFlag_sound (stuckThreshold dtSeconds) l i h
  · exact unresponsiveFlag_null (stuckThreshold dtSeconds) l i

/-- Witness for C7: the enabled `FILTERS` configuration of the driver and a
two-cell series with a null. -/
theorem unresponsive_detector_props_witness :
    stuckThreshold dtSeconds = 240 ∧
    (executedNullificationStages FILTERS).head? = some ("unresponsive_sensor") ∧
    ((unresponsiveFlag (stuckThreshold dtSeconds) [some (3 : Int), none])[0]? = some true →
      ∃ lo len v, 240 ≤ len ∧ lo ≤ 0 ∧ 0 < lo + len ∧
        ∀ j, lo ≤ j → j < lo + len → [some (3 : Int), none][j]? = some (some v)) ∧
    ([some (3 : Int), none][0]? = some none →
      (unresponsiveFlag (stuckThreshold dtSeconds) [some (3 : Int), none])[0]? = some false) :=
  unresponsive_detector_props FILTERS (List.mem_cons_self _ _) [some 3, none] 0

/-! ### Angular arithmetic lemmas -/

theorem degMod360_mem (x : ℝ) : degMod360 x ∈ Set.Ico (0 : ℝ) 360 := by
  unfold degMod360
  constructor
  · have h1 := Int.floor_le (x / 360)
    nlinarith
  · have h2 := Int.lt_floor_add_one (x / 360)
    nlinarith

theorem signedWrap_mem (x : ℝ) (h : x ∈ Set.Ico (0 : ℝ) 360) :
    signedWrap x ∈ Set.Ioc (-180 : ℝ) 180 := by
  obtain ⟨h1, h2⟩ := h
  unfold signedWrap
  split_ifs with h3
  · constructor <;> linarith
  · constructor <;> linarith

/-! ### Claim theorems: calibration bias -/

/-- C5: the per-turbine calibration bias equals one half the (wrapped)
circular mean of `wind_direction - wd_median` plus one half the (wrapped)
circular mean of `nacelle_direction - yaw_median`; it lies in the signed
range `(-180, 180]`; and it is computed only over the rows where the
turbine's power output is non-negative (restricting the input to those rows
leaves the bias unchanged). -/
theorem turbine_bias_formula (rows : List CalibRow) :
    turbineBias rows = 0.5 * wdBiasOf rows + 0.5 * yawBiasOf rows ∧
    turbineBias rows ∈ Set.Ioc (-180 : ℝ) 180 ∧
    turbineBias rows = turbineBias (rows.filter (fun r => decide (0 ≤ r.powerOutput))) := by
  have hwd := signedWrap_mem _ (degMod360_mem (circMeanDeg
    ((operatingRows rows).map (fun r => r.windDirection - r.wdMedian))))
  have hyaw := signedWrap_mem _ (degMod360_mem (circMeanDeg
    ((operatingRows rows).map (fun r => r.nacelleDirection - r.yawMedian))))
  have ha : wdBiasOf rows ∈ Set.Ioc (-180 : ℝ) 180 := hwd
  have hb : yawBiasOf rows ∈ Set.Ioc (-180 : ℝ) 180 := hyaw
  obtain ⟨ha1, ha2⟩ := ha
  obtain ⟨hb1, hb2⟩ := hb
  refine ⟨by unfold turbineBias; ring, ?_, ?_⟩
  · rw [Set.mem_Ioc]
    unfold turbineBias
    constructor <;> linarith
  · have hop : operatingRows (rows.filter (fun r => decide (0 ≤ r.powerOutput)))
        = operatingRows rows := by
      unfold operatingRows
      rw [List.filter_filter]
      simp [Bool.and_self]
    unfold turbineBias wdBiasOf yawBiasOf
    rw [hop]

/-- C10: before any farm-median or bias computation the calibration stage
adds the constant `offset = 3.0` degrees to every wind-direction column,
wrapped mod 360 (source lines 179-180), and the calibrated output is derived
from this shifted signal: expressed over the raw input, every output cell is
the raw value plus 3, wrapped, with the bias and Northing corrections
subtracted mod 360 afterwards. -/
theorem wind_direction_shift (l : List ℝ) (biasVal northing : ℝ) :
    windDirOffsetDeg = 3 ∧
    shiftWindDirections l = l.map (fun x => degMod360 (x + 3)) ∧
    calibratedWindDirections biasVal northing l
      = l.map (fun x => degMod360 (degMod360 (degMod360 (x + 3) - biasVal) - northing)) := by
  have h30 : windDirOffsetDeg = 3 := by norm_num [windDirOffsetDeg]
  refine ⟨h30, ?_, ?_⟩
  · unfold shiftWindDirections
    rw [h30]
  · unfold calibratedWindDirections shiftWindDirections
    rw [List.map_map, h30]
    rfl

/-! ### Median lemmas and the farm median -/

theorem median_pair (a b : ℝ) : medianOf [a, b] = (a + b) / 2 := by
  have hs : sortReals [a, b] = if a ≤ b then [a, b] else [b, a] := by
    unfold sortReals
    simp [List.insertionSort, List.orderedInsert]
  unfold medianOf
  rw [hs]
  by_cases hab : a ≤ b
  · rw [if_pos hab]
    norm_num
  · rw [if_neg hab]
    norm_num
    ring

/-- C6: the farm median direction is the per-row median taken independently
over the sine and over the cosine projections, recombined via `atan2` — not
the median of the raw angles: on the row `[1°, 359°]`, clustered around the
0/360 boundary, the projected median is exactly 0 while the raw-angle
median is 180. -/
theorem farm_median_sincos :
    farmDirectionMedian [some 1, some 359] = 0 ∧
    rawAngleMedian [some 1, some 359] = 180 := by
  have h359 : deg2rad 359 = -(deg2rad 1) + 2 * Real.pi := by
    unfold deg2rad
    ring
  have hsin359 : Real.sin (deg2rad 359) = -Real.sin (deg2rad 1) := by
    rw [h359, Real.sin_add_two_pi, Real.sin_neg]
  have hcos359 : Real.cos (deg2rad 359) = Real.cos (deg2rad 1) := by
    rw [h359, Real.cos_add_two_pi, Real.cos_neg]
  have hcpos : 0 < Real.cos (deg2rad 1) := by
    unfold deg2rad
    apply Real.cos_pos_of_mem_Ioo
    constructor
    · nlinarith [Real.pi_pos]
    · nlinarith [Real.pi_pos]
  constructor
  · have hs : nanMedian ([some (1:ℝ), some 359].map
        (Option.map (fun x => Real.sin (deg2rad x)))) = 0 := by
      unfold nanMedian
      have hred : ([some (1:ℝ), some 359].map
          (Option.map (fun x => Real.sin (deg2rad x)))).reduceOption
          = [Real.sin (deg2rad 1), Real.sin (deg2rad 359)] := by
        simp
      rw [hred, median_pair, hsin359]
      ring
    have hc : nanMedian ([some (1:ℝ), some 359].map
        (Option.map (fun x => Real.cos (deg2rad x)))) = Real.cos (deg2rad 1) := by
      unfold nanMedian
      have hred : ([some (1:ℝ), some 359].map
          (Option.map (fun x => Real.cos (deg2rad x)))).reduceOption
          = [Real.cos (deg2rad 1), Real.cos (deg2rad 359)] := by
        simp
      rw [hred, median_pair, hcos359]
      ring
    unfold farmDirectionMedian
    rw [hs, hc]
    unfold atan2
    rw [if_pos hcpos, zero_div, Real.arctan_zero]
    unfold rad2deg
    ring
  · unfold rawAngleMedian nanMedian
    have hred : ([some (1:ℝ), some 359]).reduceOption = [(1:ℝ), 359] := by
      simp
    rw [hred, median_pair]
    norm_num

/-! ### Normalization lemmas -/

theorem affine_norm_bounds (m M x : ℝ) (hlt : m < M) (hx1 : m ≤ x) (hx2 : x ≤ M) :
    (2 * ((x - m) / (M - m)) - 1 ∈ Set.Icc (-1 : ℝ) 1) ∧
    ((2 * ((x - m) / (M - m)) - 1 + 1) / 2) * (M - m) + m = x := by
  have hMm : (0 : ℝ) < M - m := by linarith
  have h0 : 0 ≤ (x - m) / (M - m) := div_nonneg (by linarith) hMm.le
  have h1 : (x - m) / (M - m) ≤ 1 := by
    rw [div_le_one hMm]
    linarith
  constructor
  · rw [Set.mem_Icc]
    constructor <;> linarith
  · have hh : (2 * ((x - m) / (M - m)) - 1 + 1) / 2 = (x - m) / (M - m) := by ring
    rw [hh, div_mul_cancel₀ _ (ne_of_gt hMm)]
    ring

theorem round2_zero : round2 0 = 0 := by
  unfold round2
  norm_num

theorem round2_one : round2 1 = 1 := by
  unfold round2
  have h1 : (1 : ℝ) * 100 = 100 := by norm_num
  have h2 : round ((100 : ℝ)) = 100 := by
    rw [round_eq, Int.floor_eq_iff]
    constructor <;> norm_num
  rw [h1, h2]
  norm_num

/-- C8 counterexample: on the degenerate family `[[5, 5]]` the computed max
equals the computed min, yet normalization does not fail — the source has no
degeneracy check — and the stored denominator is 0, so the affine expression
divides by zero. -/
theorem normalization_no_degenerate_check_cex :
    normDenom [[(5 : ℝ), 5]] = 0 ∧
    (normalizeFamily [[(5 : ℝ), 5]]).map List.length = [2] := by
  have hmax : familyMax [[(5 : ℝ), 5]] = 5 := by
    simp [familyMax, colMax]
  have hmin : familyMin [[(5 : ℝ), 5]] = 5 := by
    simp [familyMin, colMin]
  constructor
  · unfold normDenom
    rw [hmax, hmin]
    ring
  · simp [normalizeFamily]

/-- C8 (amended): when a feature family's computed max equals its computed
min, the normalization stage raises no error: it still maps every cell of
every column through `2 * ((x - min) / (max - min)) - 1`, whose denominator
is zero (an unguarded division by zero), and the output table keeps the
shape of the input. -/
theorem normalization_degenerate_divides_by_zero (cols : List (List ℝ))
    (h : familyMax cols = familyMin cols) :
    normDenom cols = 0 ∧
    normalizeFamily cols
      = cols.map (fun col => col.map (fun x => 2 * ((x - round2 (familyMin cols)) / 0) - 1)) ∧
    (normalizeFamily cols).map List.length = cols.map List.length := by
  have hd : normDenom cols = 0 := by
    unfold normDenom
    rw [h]
    ring
  refine ⟨hd, ?_, ?_⟩
  · unfold normalizeFamily
    apply List.map_congr_left
    intro col _
    apply List.map_congr_left
    intro x _
    unfold normValue
    rw [hd]
  · unfold normalizeFamily
    simp

/-- Witness for C8 (amended): concrete degenerate family `[[5, 5]]`. -/
theorem normalization_degenerate_divides_by_zero_witness :
    normDenom [[(5 : ℝ), 5]] = 0 ∧
    normalizeFamily [[(5 : ℝ), 5]]
      = [[(5 : ℝ), 5]].map (fun col => col.map
          (fun x => 2 * ((x - round2 (familyMin [[(5 : ℝ), 5]])) / 0) - 1)) ∧
    (normalizeFamily [[(5 : ℝ), 5]]).map List.length = [[(5 : ℝ), 5]].map List.length :=
  normalization_degenerate_divides_by_zero [[(5 : ℝ), 5]]
    (by simp [familyMax, familyMin, colMax, colMin])

/-- C9 counterexample: the stage normalizes with the ROUNDED constants
(source line 748 reads them back from the rounded `norm_vals`), so a data
value above the rounded max escapes `[-1, 1]`: on `[[0, 0.994]]` the stored
constants are `(0, 0.99)` with `max > min`, and the value `0.994` maps to
`2 * (0.994 / 0.99) - 1 > 1`. -/
theorem normalization_range_cex :
    round2 (familyMin [[(0 : ℝ), 994 / 1000]]) = 0 ∧
    round2 (familyMax [[(0 : ℝ), 994 / 1000]]) = 99 / 100 ∧
    1 < normValue [[(0 : ℝ), 994 / 1000]] (994 / 1000) := by
  have hmin : familyMin [[(0 : ℝ), 994 / 1000]] = 0 := by
    simp [familyMin, colMin]
    norm_num
  have hmax : familyMax [[(0 : ℝ), 994 / 1000]] = 994 / 1000 := by
    simp [familyMax, colMax]
    norm_num
  have hr994 : round2 ((994 : ℝ) / 1000) = 99 / 100 := by
    unfold round2
    have h1 : (994 : ℝ) / 1000 * 100 = 497 / 5 := by norm_num
    have h2 : round ((497 : ℝ) / 5) = 99 := by
      rw [round_eq, Int.floor_eq_iff]
      constructor <;> norm_num
    rw [h1, h2]
    norm_num
  refine ⟨by rw [hmin, round2_zero], by rw [hmax, hr994], ?_⟩
  unfold normValue normDenom
  rw [hmin, hmax, round2_zero, hr994]
  norm_num

/-- C9 (amended): for a feature family whose persisted (rounded) constants
satisfy `max > min`, every value lying within the persisted `[min, max]`
bounds is mapped by `2 * ((x - min) / (max - min)) - 1` into `[-1, 1]`
(values above the rounded max map above 1, see the counterexample), the
inverse affine transform with the same stored constants recovers the value
exactly, and the persisted constants row is one `(min, max)` scalar pair per
family, rounded to two decimals. -/
theorem normalization_roundtrip (cols : List (List ℝ)) (x : ℝ)
    (hlt : round2 (familyMin cols) < round2 (familyMax cols))
    (hx1 : round2 (familyMin cols) ≤ x) (hx2 : x ≤ round2 (familyMax cols)) :
    normValue cols x
      = 2 * ((x - round2 (familyMin cols))
        / (round2 (familyMax cols) - round2 (familyMin cols))) - 1 ∧
    normValue cols x ∈ Set.Icc (-1 : ℝ) 1 ∧
    denormValue cols (normValue cols x) = x ∧
    normConstsRow [cols] = [(round2 (familyMin cols), round2 (familyMax cols))] := by
  have h := affine_norm_bounds (round2 (familyMin cols)) (round2 (familyMax cols)) x
    hlt hx1 hx2
  exact ⟨rfl, h.1, h.2, by simp [normConstsRow]⟩

/-- Witness for C9 (amended): family `[[0, 1]]` with stored constants
`(0, 1)` and the value `1/2`, normalized to 0 and recovered. -/
theorem normalization_roundtrip_witness :
    (normValue [[(0 : ℝ), 1]] (1 / 2)
      = 2 * (((1 : ℝ) / 2 - round2 (familyMin [[(0 : ℝ), 1]]))
        / (round2 (familyMax [[(0 : ℝ), 1]]) - round2 (familyMin [[(0 : ℝ), 1]]))) - 1) ∧
    normValue [[(0 : ℝ), 1]] (1 / 2) ∈ Set.Icc (-1 : ℝ) 1 ∧
    denormValue [[(0 : ℝ), 1]] (normValue [[(0 : ℝ), 1]] (1 / 2)) = 1 / 2 ∧
    normConstsRow [[[(0 : ℝ), 1]]]
      = [(round2 (familyMin [[(0 : ℝ), 1]]), round2 (familyMax [[(0 : ℝ), 1]]))] := by
  have hmin : familyMin [[(0 : ℝ), 1]] = 0 := by
    simp [familyMin, colMin]
  have hmax : familyMax [[(0 : ℝ), 1]] = 1 := by
    simp [familyMax, colMax]
  exact normalization_roundtrip [[(0 : ℝ), 1]] (1 / 2)
    (by rw [hmin, hmax, round2_zero, round2_one]; norm_num)
    (by rw [hmin, round2_zero]; norm_num)
    (by rw [hmax, round2_one]; norm_num)
